import Mathlib

/-!
Verification of the `pw` password-store package.

The package stores a list of password entries as a JSON array encrypted with
the external `scrypt` utility.  We embed shallowly:

* `PasswordEntry` mirrors the Go struct (three string fields with JSON tags
  `name`, `username`, `password`).
* The JSON codec mirrors the behaviour of Go's `encoding/json` on the type
  `[]PasswordEntry`: `marshal` produces the compact encoding with
  HTML-escaping (the default for `json.Marshal`), and `decodeEntries`
  parses a JSON document and converts it following `json.Unmarshal`
  semantics for this target type (top-level `null` is accepted and leaves
  the destination slice nil; unknown object keys are skipped; keys are
  matched case-insensitively; a `null` field or element leaves the zero
  value in place).
* The filesystem and the scrypt delegate are abstracted: a store path holds
  either nothing, a directory, or a file carrying the plaintext the delegate
  would return on decryption plus its permission bits.  Encryption is a
  black box that round-trips bytes, so the model keeps the plaintext.
  Each operation is a function from the filesystem state at its path to a
  result together with the new state.
-/

/-- One entry of the password file, mirroring the Go struct `PasswordEntry`
with JSON field tags `name`, `username`, `password`. -/
structure PasswordEntry where
  name : String
  username : String
  password : String
deriving DecidableEq, Repr

/-- The plaintext content of a store: a sequence of entries. -/
abbrev Entries := List PasswordEntry

/-- JSON values, with object members in source order and strings as raw
character lists.  Numbers keep their source text (the store never reads
them back as numbers). -/
inductive JsonV where
  | null : JsonV
  | bool (b : Bool) : JsonV
  | num (text : List Char) : JsonV
  | str (s : List Char) : JsonV
  | arr (elems : List JsonV) : JsonV
  | obj (members : List (List Char × JsonV)) : JsonV
deriving Repr

/-- Lowercase hexadecimal digit, as used by `encoding/json` when emitting
`\u00XX` escapes. -/
def hexDigit (n : Nat) : Char :=
  if n < 10 then Char.ofNat (48 + n) else Char.ofNat (87 + n)

/-- A `\uXXXX` escape for the code point `n`, lowercase hex as Go emits. -/
def uEscape (n : Nat) : List Char :=
  ['\\', 'u', hexDigit (n / 4096 % 16), hexDigit (n / 256 % 16),
   hexDigit (n / 16 % 16), hexDigit (n % 16)]

/-- How `encoding/json` (with its default HTML escaping) renders one
character inside a JSON string: `"` and `\` get a backslash escape,
`<`, `>`, `&` become `\u00XX`, the controls `\n`, `\r`, `\t` use their
short escapes, other controls below `U+0020` become `\u00XX`, and the
line separators `U+2028`/`U+2029` are escaped; everything else is
emitted verbatim. -/
def escapeChar (c : Char) : List Char :=
  if c = '"' then ['\\', '"']
  else if c = '\\' then ['\\', '\\']
  else if c = '<' ∨ c = '>' ∨ c = '&' then uEscape c.toNat
  else if c = '\n' then ['\\', 'n']
  else if c = '\r' then ['\\', 'r']
  else if c = '\t' then ['\\', 't']
  else if c.toNat < 32 then uEscape c.toNat
  else if c.toNat = 8232 ∨ c.toNat = 8233 then uEscape c.toNat
  else [c]

/-- A JSON string literal for `s`: quote, escaped characters, quote. -/
def quoteChars (s : List Char) : List Char :=
  '"' :: s.flatMap escapeChar ++ ['"']

/-- The compact `json.Marshal` encoding of one `PasswordEntry`: fields in
struct declaration order with their JSON tags. -/
def marshalEntryChars (e : PasswordEntry) : List Char :=
  '\x7b' :: ("\"name\":".data ++ quoteChars e.name.data
    ++ [','] ++ "\"username\":".data ++ quoteChars e.username.data
    ++ [','] ++ "\"password\":".data ++ quoteChars e.password.data
    ++ ['\x7d'])

/-- The comma-separated renderings of the entries of a list. -/
def entriesChars : List PasswordEntry → List Char
  | [] => []
  | [e] => marshalEntryChars e
  | e :: e' :: rest => marshalEntryChars e ++ ',' :: entriesChars (e' :: rest)

/-- The `json.Marshal` encoding of a (non-nil) `[]PasswordEntry` value:
a compact JSON array. -/
def marshalChars (l : List PasswordEntry) : List Char :=
  '[' :: entriesChars l ++ [']']

/-- The `json.Marshal` encoding as a string. -/
def marshal (l : List PasswordEntry) : String :=
  String.mk (marshalChars l)

/-- JSON insignificant whitespace, exactly the set Go's scanner skips. -/
def isJsonWs (c : Char) : Bool :=
  c = ' ' ∨ c = '\t' ∨ c = '\n' ∨ c = '\r'

/-- Drop leading JSON whitespace. -/
def skipWs : List Char → List Char
  | [] => []
  | c :: r => if isJsonWs c then skipWs r else c :: r

/-- Numeric value of a hexadecimal digit character (either case), as
accepted inside `\u` escapes. -/
def hexVal (c : Char) : Option Nat :=
  if '0' ≤ c ∧ c ≤ '9' then some (c.toNat - 48)
  else if 'a' ≤ c ∧ c ≤ 'f' then some (c.toNat - 87)
  else if 'A' ≤ c ∧ c ≤ 'F' then some (c.toNat - 55)
  else none

/-- Value of a four-digit hexadecimal escape body. -/
def hex4 (a b c d : Char) : Option Nat :=
  match hexVal a, hexVal b, hexVal c, hexVal d with
  | some w, some x, some y, some z => some (4096 * w + 256 * x + 16 * y + z)
  | _, _, _, _ => none

/-- Is `n` a UTF-16 surrogate code unit? -/
def isSurrogate (n : Nat) : Bool := 55296 ≤ n ∧ n < 57344

/-- The Unicode replacement character, which Go substitutes for invalid
surrogate escapes. -/
def replacementChar : Char := Char.ofNat 65533

/-- Parse the body of a JSON string literal (the opening quote already
consumed), returning the decoded characters and the input after the
closing quote.  Mirrors Go's scanner and unquoter: raw control
characters are rejected, escapes are decoded, and surrogate escapes
follow `utf16.DecodeRune` (a valid high+low pair combines into one
character; anything else becomes `U+FFFD`, consuming only the first
escape).  `fuel` only bounds the recursion; every iteration consumes at
least one input character, so the callers' `input length + 1` makes
exhaustion unreachable. -/
def parseStringBody : Nat → List Char → Option (List Char × List Char)
  | 0, _ => none
  | _ + 1, [] => none
  | fuel + 1, c :: r =>
    if c = '"' then some ([], r)
    else if c = '\\' then
      match r with
      | [] => none
      | e :: r1 =>
        if e = '"' then Option.map (fun p => ('"' :: p.1, p.2)) (parseStringBody fuel r1)
        else if e = '\\' then Option.map (fun p => ('\\' :: p.1, p.2)) (parseStringBody fuel r1)
        else if e = '/' then Option.map (fun p => ('/' :: p.1, p.2)) (parseStringBody fuel r1)
        else if e = 'b' then Option.map (fun p => (Char.ofNat 8 :: p.1, p.2)) (parseStringBody fuel r1)
        else if e = 'f' then Option.map (fun p => (Char.ofNat 12 :: p.1, p.2)) (parseStringBody fuel r1)
        else if e = 'n' then Option.map (fun p => ('\n' :: p.1, p.2)) (parseStringBody fuel r1)
        else if e = 'r' then Option.map (fun p => ('\r' :: p.1, p.2)) (parseStringBody fuel r1)
        else if e = 't' then Option.map (fun p => ('\t' :: p.1, p.2)) (parseStringBody fuel r1)
        else if e = 'u' then
          match r1 with
          | a :: b :: c' :: d :: r2 =>
            match hex4 a b c' d with
            | none => none
            | some n =>
              if isSurrogate n then
                match r2 with
                | '\\' :: 'u' :: a2 :: b2 :: c2 :: d2 :: r3 =>
                  (match hex4 a2 b2 c2 d2 with
                   | some m =>
                     if n < 56320 ∧ 56320 ≤ m ∧ m < 57344 then
                       Option.map
                         (fun p => (Char.ofNat (65536 + (n - 55296) * 1024 + (m - 56320)) :: p.1, p.2))
                         (parseStringBody fuel r3)
                     else
                       Option.map (fun p => (replacementChar :: p.1, p.2))
                         (parseStringBody fuel r2)
                   | none =>
                     Option.map (fun p => (replacementChar :: p.1, p.2))
                       (parseStringBody fuel r2))
                | _ =>
                  Option.map (fun p => (replacementChar :: p.1, p.2))
                    (parseStringBody fuel r2)
              else Option.map (fun p => (Char.ofNat n :: p.1, p.2)) (parseStringBody fuel r2)
          | _ => none
        else none
    else if c.toNat < 32 then none
    else Option.map (fun p => (c :: p.1, p.2)) (parseStringBody fuel r)

/-- Is `c` an ASCII decimal digit? -/
def isDigit (c : Char) : Bool := '0' ≤ c ∧ c ≤ '9'

/-- Parse the digits-only tail of a number component. -/
def spanDigits (s : List Char) : List Char × List Char :=
  (s.takeWhile isDigit, s.dropWhile isDigit)

/-- Parse the integer part of a JSON number after an optional sign:
`0` or a nonzero digit followed by digits (no leading zeros). -/
def parseIntPart : List Char → Option (List Char)
  | '0' :: r => some r
  | c :: r => if isDigit c then some (spanDigits r).2 else none
  | [] => none

/-- Parse an optional fraction part: `.` followed by one or more digits. -/
def parseFracPart : List Char → Option (List Char)
  | '.' :: r =>
    match spanDigits r with
    | ([], _) => none
    | (_ :: _, r') => some r'
  | s => some s

/-- Parse an optional exponent part: `e`/`E`, optional sign, digits. -/
def parseExpPart : List Char → Option (List Char)
  | c :: r =>
    if c = 'e' ∨ c = 'E' then
      match r with
      | '+' :: r' | '-' :: r' =>
        (match spanDigits r' with
         | ([], _) => none
         | (_ :: _, r'') => some r'')
      | r' =>
        match spanDigits r' with
        | ([], _) => none
        | (_ :: _, r'') => some r''
    else some (c :: r)
  | [] => some []

/-- Parse a JSON number starting at `s` (first character is `-` or a
digit), returning the remaining input.  Follows the JSON grammar that
Go's scanner enforces. -/
def parseNumberRest (s : List Char) : Option (List Char) :=
  let s1 := match s with
    | '-' :: r => r
    | r => r
  match parseIntPart s1 with
  | none => none
  | some r2 =>
    match parseFracPart r2 with
    | none => none
    | some r3 => parseExpPart r3

mutual

/-- Parse one JSON value from the input (leading whitespace allowed),
returning it and the remaining input.  `fuel` only bounds recursion
depth; the top-level caller passes more fuel than any input can use,
so exhaustion is unreachable there. -/
def parseValue : Nat → List Char → Option (JsonV × List Char)
  | 0, _ => none
  | fuel + 1, s =>
    match skipWs s with
    | [] => none
    | c :: r =>
      if c = 'n' then
        match r with
        | 'u' :: 'l' :: 'l' :: r' => some (.null, r')
        | _ => none
      else if c = 't' then
        match r with
        | 'r' :: 'u' :: 'e' :: r' => some (.bool true, r')
        | _ => none
      else if c = 'f' then
        match r with
        | 'a' :: 'l' :: 's' :: 'e' :: r' => some (.bool false, r')
        | _ => none
      else if c = '"' then
        Option.map (fun p => (.str p.1, p.2)) (parseStringBody (r.length + 1) r)
      else if c = '[' then
        match skipWs r with
        | [] => none
        | c' :: r' =>
          if c' = ']' then some (.arr [], r')
          else Option.map (fun p => (.arr p.1, p.2)) (parseElems fuel (c' :: r'))
      else if c = '\x7b' then
        match skipWs r with
        | c' :: r' =>
          if c' = '\x7d' then some (.obj [], r')
          else Option.map (fun p => (.obj p.1, p.2)) (parseMembers fuel (c' :: r'))
        | [] => none
      else if c = '-' ∨ isDigit c then
        match parseNumberRest (c :: r) with
        | some r' => some (.num ((c :: r).take ((c :: r).length - r'.length)), r')
        | none => none
      else none

/-- Parse the elements of a non-empty JSON array (opening bracket and
any whitespace already consumed, first character is the first element). -/
def parseElems : Nat → List Char → Option (List JsonV × List Char)
  | 0, _ => none
  | fuel + 1, s =>
    match parseValue fuel s with
    | none => none
    | some (v, r) =>
      match skipWs r with
      | ',' :: r' =>
        (match parseElems fuel r' with
         | some (vs, r'') => some (v :: vs, r'')
         | none => none)
      | ']' :: r' => some ([v], r')
      | _ => none

/-- Parse the members of a non-empty JSON object (opening brace and any
whitespace already consumed, first character should open the first key). -/
def parseMembers : Nat → List Char → Option (List (List Char × JsonV) × List Char)
  | 0, _ => none
  | fuel + 1, s =>
    match skipWs s with
    | '"' :: r =>
      (match parseStringBody (r.length + 1) r with
       | none => none
       | some (k, r1) =>
         match skipWs r1 with
         | ':' :: r2 =>
           (match parseValue fuel r2 with
            | none => none
            | some (v, r3) =>
              match skipWs r3 with
              | ',' :: r4 =>
                (match parseMembers fuel r4 with
                 | some (ms, r5) => some ((k, v) :: ms, r5)
                 | none => none)
              | c :: r4 =>
                if c = '\x7d' then some ([(k, v)], r4) else none
              | [] => none)
         | _ => none)
    | _ => none

end

/-- Parse a whole JSON document: one value with nothing but whitespace
around it, as `json.Unmarshal` requires (it first checks the full input
is valid JSON).  The fuel `s.length + 8` exceeds the maximal possible
recursion depth for the input, since every nesting level consumes at
least one character. -/
def parseTop (s : String) : Option JsonV :=
  match parseValue (s.data.length + 8) s.data with
  | some (v, rest) =>
    match skipWs rest with
    | [] => some v
    | _ :: _ => none
  | none => none

/-- ASCII lowercasing of one character, the relevant fragment of the
case folding `encoding/json` uses to match object keys to struct field
tags. -/
def lowerAscii (c : Char) : Char :=
  if 'A' ≤ c ∧ c ≤ 'Z' then Char.ofNat (c.toNat + 32) else c

/-- Case-insensitive key comparison (`strings.EqualFold`, modelled on the
ASCII range, which covers the three tags of `PasswordEntry`). -/
def foldEq (a b : List Char) : Bool :=
  a.map lowerAscii = b.map lowerAscii

/-- Apply one parsed object member to a `PasswordEntry` under construction,
following `json.Unmarshal` struct semantics: a key matching a field tag
(case-insensitively) requires a string value (a `null` value leaves the
field untouched, any other kind is a type error); unmatched keys are
ignored. -/
def setField (e : PasswordEntry) (m : List Char × JsonV) : Except String PasswordEntry :=
  if foldEq m.1 "name".data then
    match m.2 with
    | .str s => .ok { e with name := String.mk s }
    | .null => .ok e
    | _ => .error "cannot unmarshal value into field name of type string"
  else if foldEq m.1 "username".data then
    match m.2 with
    | .str s => .ok { e with username := String.mk s }
    | .null => .ok e
    | _ => .error "cannot unmarshal value into field username of type string"
  else if foldEq m.1 "password".data then
    match m.2 with
    | .str s => .ok { e with password := String.mk s }
    | .null => .ok e
    | _ => .error "cannot unmarshal value into field password of type string"
  else .ok e

/-- Convert one parsed JSON value into a `PasswordEntry`: an object fills
the zero value member by member (later duplicates win, as in Go); `null`
leaves the zero value; anything else is a type error. -/
def unmarshalEntry : JsonV → Except String PasswordEntry
  | .null => .ok ⟨"", "", ""⟩
  | .obj ms => ms.foldlM setField ⟨"", "", ""⟩
  | _ => .error "cannot unmarshal value into PasswordEntry"

/-- Convert a parsed JSON document into a `[]PasswordEntry` following
`json.Unmarshal`: `null` leaves the destination slice nil (modelled as
the empty list, which is how the rest of the package treats nil),
an array converts element-wise, anything else is a type error. -/
def unmarshalEntries : JsonV → Except String (List PasswordEntry)
  | .null => .ok []
  | .arr vs => vs.mapM unmarshalEntry
  | _ => .error "cannot unmarshal value into slice of PasswordEntry"

/-- The full decoding pipeline of `json.Unmarshal(output, &data)` for
`[]PasswordEntry`: syntax-check/parse the document, then convert. -/
def decodeEntries (s : String) : Except String (List PasswordEntry) :=
  match parseTop s with
  | none => .error "invalid JSON syntax"
  | some v => unmarshalEntries v

/-- The JSON value denoted by the `json.Marshal` encoding of one entry. -/
def entryJson (e : PasswordEntry) : JsonV :=
  .obj [("name".data, .str e.name.data),
        ("username".data, .str e.username.data),
        ("password".data, .str e.password.data)]

/-- The JSON value denoted by the `json.Marshal` encoding of a list. -/
def entryListJson (l : List PasswordEntry) : JsonV :=
  .arr (l.map entryJson)

/-- A filesystem entry at the store path.  A file carries the plaintext
the scrypt delegate yields on decryption (encryption is modelled as a
byte-faithful black box, per the delegate contract) and its permission
bits. -/
inductive FsEntry where
  | file (content : String) (mode : Nat) : FsEntry
  | dir : FsEntry
deriving DecidableEq, Repr

/-- Errors of the `pw` package: the four exported sentinel errors plus the
distinguishable wrapped error classes the operations can produce.
(The scrypt delegate is modelled as succeeding, so its failure wrappers
do not arise in the model.) -/
inductive PwError where
  | fileNotFound : PwError
  | fileAlreadyExists : PwError
  | notFound : PwError
  | alreadyExists : PwError
  | emptyFilename : PwError
  | isDirectory : PwError
  | invalidJson (msg : String) : PwError
deriving DecidableEq, Repr

/-- The permission bits `0600` (owner read/write only) that `write`
chmods onto the store file. -/
def ownerOnlyMode : Nat := 384

namespace Pw

/-- Operation `read`: stat the path (absent ⇒ `ErrPwFileNotFound`, directory ⇒ a
descriptive error), run `scrypt dec` (modelled as returning the stored
plaintext), and `json.Unmarshal` the output, wrapping a decode failure
as an invalid-JSON error. -/
def read (st : Option FsEntry) : Except PwError (List PasswordEntry) :=
  match st with
  | none => .error .fileNotFound
  | some .dir => .error .isDirectory
  | some (.file content _) =>
    match decodeEntries content with
    | .ok data => .ok data
    | .error msg => .error (.invalidJson msg)

/-- Operation `write`: `json.Marshal` the data, pipe it through `scrypt enc` to the
path (modelled as storing the plaintext), then chmod the file to `0600`.
The delegate is modelled as succeeding, so `write` always succeeds. -/
def write (data : List PasswordEntry) : Option FsEntry :=
  some (.file (marshal data) ownerOnlyMode)

/-- Operation `Init`: reject an empty filename, fail with `ErrPwFileAlreadyExists`
when something exists at the path, otherwise write an empty entry list. -/
def Init (filename : String) (st : Option FsEntry) :
    Except PwError Unit × Option FsEntry :=
  if filename.length = 0 then (.error .emptyFilename, st)
  else
    match st with
    | some _ => (.error .fileAlreadyExists, st)
    | none => (.ok (), write [])

/-- Operation `Get`: read the store and return the first entry whose `Name` equals
`name`, or `ErrPwNotFound`.  Never writes. -/
def Get (filename : String) (name : String) (st : Option FsEntry) :
    Except PwError PasswordEntry :=
  if filename.length = 0 then .error .emptyFilename
  else
    match read st with
    | .error e => .error e
    | .ok data =>
      match data.find? (fun entry => entry.name = name) with
      | some entry => .ok entry
      | none => .error .notFound

/-- The Go loop of `Add`: does any existing entry share the new name? -/
def containsName (data : List PasswordEntry) (name : String) : Bool :=
  data.any (fun entry => entry.name = name)

/-- Operation `Add`: read the store, fail with `ErrPwAlreadyExists` when the name is
taken, otherwise append the new entry and write back. -/
def Add (filename : String) (newEntry : PasswordEntry) (st : Option FsEntry) :
    Except PwError Unit × Option FsEntry :=
  if filename.length = 0 then (.error .emptyFilename, st)
  else
    match read st with
    | .error e => (.error e, st)
    | .ok data =>
      if containsName data newEntry.name then (.error .alreadyExists, st)
      else (.ok (), write (data ++ [newEntry]))

/-- The Go loop of `Update`: replace the first entry whose name matches
(`break` after the first hit), reporting whether one was found. -/
def updateFirst (newEntry : PasswordEntry) : List PasswordEntry → Option (List PasswordEntry)
  | [] => none
  | entry :: rest =>
    if entry.name = newEntry.name then some (newEntry :: rest)
    else Option.map (fun r => entry :: r) (updateFirst newEntry rest)

/-- Operation `Update`: read the store, replace the first entry with the new entry's
name in place, fail with `ErrPwNotFound` when none matches, otherwise
write the updated list back. -/
def Update (filename : String) (newEntry : PasswordEntry) (st : Option FsEntry) :
    Except PwError Unit × Option FsEntry :=
  if filename.length = 0 then (.error .emptyFilename, st)
  else
    match read st with
    | .error e => (.error e, st)
    | .ok data =>
      match updateFirst newEntry data with
      | none => (.error .notFound, st)
      | some data' => (.ok (), write data')

/-- The Go loop of `Remove`: keep the entries whose name differs, and
report whether any entry matched. -/
def removeName (name : String) : List PasswordEntry → List PasswordEntry × Bool
  | [] => ([], false)
  | entry :: rest =>
    let r := removeName name rest
    if entry.name ≠ name then (entry :: r.1, r.2) else (r.1, true)

/-- Operation `Remove`: read the store, drop every entry with the given name, fail
with `ErrPwNotFound` when none matched, otherwise write the survivors
back in order. -/
def Remove (filename : String) (name : String) (st : Option FsEntry) :
    Except PwError Unit × Option FsEntry :=
  if filename.length = 0 then (.error .emptyFilename, st)
  else
    match read st with
    | .error e => (.error e, st)
    | .ok data =>
      let r := removeName name data
      if r.2 then (.ok (), write r.1) else (.error .notFound, st)

/-- Operation `List`: read the store and return all entries in on-disk order. -/
def List (filename : String) (st : Option FsEntry) :
    Except PwError Entries :=
  if filename.length = 0 then .error .emptyFilename
  else read st

end Pw

/-- Operation `GeneratePassword`: Go strings are indexed by byte, so the model works
on the charset's bytes.  Each position draws an index via
`crypto/rand.Int(rand.Reader, big.NewInt(len(charset)))`, which returns a
uniform value below `len(charset)`; the draws are abstracted as a stream
`draws : Nat → Nat` whose values the theorems constrain to be in range.
Non-positive length and an empty charset are rejected before any draw. -/
def GeneratePassword (length : Int) (charset : List Nat) (draws : Nat → Nat) :
    Except String (List Nat) :=
  if length ≤ 0 then .error "length must be positive"
  else if charset.length = 0 then .error "charset cannot be empty"
  else .ok ((List.range length.toNat).map (fun i => charset.getD (draws i) 0))

/-- The UTF-8 encoding of one character, as a byte-value list.  Used to
relate Go's byte strings to Lean's character strings. -/
def utf8Char (c : Char) : List Nat :=
  let n := c.toNat
  if n < 128 then [n]
  else if n < 2048 then [192 + n / 64, 128 + n % 64]
  else if n < 65536 then [224 + n / 4096, 128 + n / 64 % 64, 128 + n % 64]
  else [240 + n / 262144, 128 + n / 4096 % 64, 128 + n / 64 % 64, 128 + n % 64]

/-- The bytes of a Go string holding the UTF-8 text of `s`. -/
def goBytes (s : String) : List Nat :=
  s.data.flatMap utf8Char

/-! ### Theorems: round trip of the codec -/

theorem skipWs_cons_of (c : Char) (r : List Char) (h : isJsonWs c = false) :
    skipWs (c :: r) = c :: r := by
  simp [skipWs, h]

theorem hexVal_hexDigit (m : Nat) (h : m < 16) : hexVal (hexDigit m) = some m := by
  interval_cases m <;> decide


theorem hex4_hexDigits (n : Nat) (h : n < 65536) :
    hex4 (hexDigit (n / 4096 % 16)) (hexDigit (n / 256 % 16))
      (hexDigit (n / 16 % 16)) (hexDigit (n % 16)) = some n := by
  have e1 := hexVal_hexDigit (n / 4096 % 16) (Nat.mod_lt _ (by norm_num))
  have e2 := hexVal_hexDigit (n / 256 % 16) (Nat.mod_lt _ (by norm_num))
  have e3 := hexVal_hexDigit (n / 16 % 16) (Nat.mod_lt _ (by norm_num))
  have e4 := hexVal_hexDigit (n % 16) (Nat.mod_lt _ (by norm_num))
  simp only [hex4, e1, e2, e3, e4]
  congr 1
  omega

theorem escapeChar_length_pos (c : Char) : 0 < (escapeChar c).length := by
  unfold escapeChar uEscape
  repeat' split
  all_goals simp

theorem length_le_flatMap_escape (s : List Char) :
    s.length ≤ (s.flatMap escapeChar).length := by
  induction s with
  | nil => simp
  | cons c cs ih =>
    have := escapeChar_length_pos c
    simp only [List.flatMap_cons, List.length_append, List.length_cons]
    omega

theorem parseStringBody_u (f n : Nat) (hn : n < 55296) (T : List Char) :
    parseStringBody (f + 1) ('\\' :: 'u' :: hexDigit (n / 4096 % 16)
        :: hexDigit (n / 256 % 16) :: hexDigit (n / 16 % 16) :: hexDigit (n % 16) :: T) =
      Option.map (fun p => (Char.ofNat n :: p.1, p.2)) (parseStringBody f T) := by
  have hs : isSurrogate n = false := by
    simp only [isSurrogate, decide_eq_false_iff_not, not_and]
    omega
  simp [parseStringBody, hex4_hexDigits n (by omega), hs]

theorem parseStringBody_escape (s : List Char) :
    ∀ (f : Nat) (rest : List Char), s.length + 1 ≤ f →
      parseStringBody f (s.flatMap escapeChar ++ '"' :: rest) = some (s, rest) := by
  induction s with
  | nil =>
    intro f rest hf
    obtain ⟨f', rfl⟩ : ∃ f', f = f' + 1 := ⟨f - 1, by omega⟩
    simp [parseStringBody]
  | cons c cs ih =>
    intro f rest hf
    obtain ⟨f', rfl⟩ : ∃ f', f = f' + 1 := ⟨f - 1, by omega⟩
    have hcs : cs.length + 1 ≤ f' := by
      simp only [List.length_cons] at hf
      omega
    have ihr := ih f' rest hcs
    simp only [List.flatMap_cons, List.append_assoc]
    by_cases h1 : c = '"'
    · subst h1
      have hE : escapeChar '"' = ['\\', '"'] := rfl
      simp [hE, parseStringBody, ihr]
    by_cases h2 : c = '\\'
    · subst h2
      have hE : escapeChar '\\' = ['\\', '\\'] := rfl
      simp [hE, parseStringBody, ihr]
    by_cases h3 : c = '<' ∨ c = '>' ∨ c = '&'
    · have hE : escapeChar c = uEscape c.toNat := by
        simp [escapeChar, h1, h2, h3]
      have hlt : c.toNat < 55296 := by
        rcases h3 with h | h | h <;> subst h <;> decide
      simp only [hE, uEscape, List.cons_append]
      rw [parseStringBody_u f' c.toNat hlt, Char.ofNat_toNat]
      simp [ihr]
    by_cases h4 : c = '\n'
    · subst h4
      have hE : escapeChar '\n' = ['\\', 'n'] := rfl
      simp [hE, parseStringBody, ihr]
    by_cases h5 : c = '\r'
    · subst h5
      have hE : escapeChar '\r' = ['\\', 'r'] := rfl
      simp [hE, parseStringBody, ihr]
    by_cases h6 : c = '\t'
    · subst h6
      have hE : escapeChar '\t' = ['\\', 't'] := rfl
      simp [hE, parseStringBody, ihr]
    by_cases h7 : c.toNat < 32
    · have hE : escapeChar c = uEscape c.toNat := by
        simp [escapeChar, h1, h2, h3, h4, h5, h6, h7]
      simp only [hE, uEscape, List.cons_append]
      rw [parseStringBody_u f' c.toNat (by omega), Char.ofNat_toNat]
      simp [ihr]
    by_cases h8 : c.toNat = 8232 ∨ c.toNat = 8233
    · have hE : escapeChar c = uEscape c.toNat := by
        simp [escapeChar, h1, h2, h3, h4, h5, h6, h7, h8]
      have hlt : c.toNat < 55296 := by omega
      simp only [hE, uEscape, List.cons_append]
      rw [parseStringBody_u f' c.toNat hlt, Char.ofNat_toNat]
      simp [ihr]
    · have hE : escapeChar c = [c] := by
        simp [escapeChar, h1, h2, h3, h4, h5, h6, h7, h8]
      simp [hE, parseStringBody, h1, h2, h7, ihr]

theorem parseValue_quote (g : Nat) (s tail : List Char) :
    parseValue (g + 1) (quoteChars s ++ tail) = some (.str s, tail) := by
  have hb := length_le_flatMap_escape s
  simp only [quoteChars, List.cons_append, List.append_assoc]
  simp only [parseValue]
  simp [skipWs, isJsonWs]
  simp at hb
  exact parseStringBody_escape s _ tail (by omega)

theorem parseStringBody_plain (k : List Char) (hk : k.flatMap escapeChar = k)
    (f : Nat) (rest : List Char) (hf : k.length + 1 ≤ f) :
    parseStringBody f (k ++ '"' :: rest) = some (k, rest) := by
  conv_lhs => rw [← hk]
  exact parseStringBody_escape k f rest hf

theorem parseMembers_cons (g : Nat) (k s tail : List Char) (hk : k.flatMap escapeChar = k) :
    parseMembers (g + 2) ('"' :: (k ++ '"' :: ':' :: (quoteChars s ++ ',' :: tail))) =
      Option.map (fun p => ((k, JsonV.str s) :: p.1, p.2)) (parseMembers (g + 1) tail) := by
  have hkey := parseStringBody_plain k hk
    ((k ++ '"' :: ':' :: (quoteChars s ++ ',' :: tail)).length + 1)
    (':' :: (quoteChars s ++ ',' :: tail))
    (by simp only [List.length_append, List.length_cons]; omega)
  have hq : parseValue (g + 1) (quoteChars s ++ ',' :: tail) = some (.str s, ',' :: tail) :=
    parseValue_quote g s (',' :: tail)
  conv_lhs => rw [parseMembers]
  rw [skipWs_cons_of '"' _ (by decide)]
  simp only [hkey]
  rw [skipWs_cons_of ':' _ (by decide)]
  simp only [hq]
  rw [skipWs_cons_of ',' _ (by decide)]
  cases hres : parseMembers (g + 1) tail with
  | none => simp [hres]
  | some p => simp [hres]

theorem parseMembers_last (g : Nat) (k s rest : List Char) (hk : k.flatMap escapeChar = k) :
    parseMembers (g + 2) ('"' :: (k ++ '"' :: ':' :: (quoteChars s ++ '\x7d' :: rest))) =
      some ([(k, JsonV.str s)], rest) := by
  have hkey := parseStringBody_plain k hk
    ((k ++ '"' :: ':' :: (quoteChars s ++ '\x7d' :: rest)).length + 1)
    (':' :: (quoteChars s ++ '\x7d' :: rest))
    (by simp only [List.length_append, List.length_cons]; omega)
  have hq : parseValue (g + 1) (quoteChars s ++ '\x7d' :: rest) =
      some (.str s, '\x7d' :: rest) :=
    parseValue_quote g s ('\x7d' :: rest)
  conv_lhs => rw [parseMembers]
  rw [skipWs_cons_of '"' _ (by decide)]
  simp only [hkey]
  rw [skipWs_cons_of ':' _ (by decide)]
  simp only [hq]
  rw [skipWs_cons_of '\x7d' _ (by decide)]
  simp

theorem parseValue_entry (g : Nat) (e : PasswordEntry) (tail : List Char) :
    parseValue (g + 5) (marshalEntryChars e ++ tail) = some (entryJson e, tail) := by
  have k1 : "\"name\":".data = '"' :: ("name".data ++ ['"', ':']) := rfl
  have k2 : "\"username\":".data = '"' :: ("username".data ++ ['"', ':']) := rfl
  have k3 : "\"password\":".data = '"' :: ("password".data ++ ['"', ':']) := rfl
  have hshape : marshalEntryChars e ++ tail =
      '\x7b' :: ('"' :: ("name".data ++ '"' :: ':' :: (quoteChars e.name.data
        ++ ',' :: ('"' :: ("username".data ++ '"' :: ':' :: (quoteChars e.username.data
        ++ ',' :: ('"' :: ("password".data ++ '"' :: ':' :: (quoteChars e.password.data
        ++ '\x7d' :: tail))))))))) := by
    simp [marshalEntryChars, k1, k2, k3]
  rw [hshape]
  show parseValue (g + 4 + 1) _ = _
  conv_lhs => rw [parseValue]
  rw [skipWs_cons_of '\x7b' _ (by decide)]
  simp only [skipWs_cons_of '"' _ (by decide)]
  have hM1 := parseMembers_cons (g + 2) "name".data e.name.data
    ('"' :: ("username".data ++ '"' :: ':' :: (quoteChars e.username.data
      ++ ',' :: ('"' :: ("password".data ++ '"' :: ':' :: (quoteChars e.password.data
      ++ '\x7d' :: tail)))))) rfl
  have hM2 := parseMembers_cons (g + 1) "username".data e.username.data
    ('"' :: ("password".data ++ '"' :: ':' :: (quoteChars e.password.data
      ++ '\x7d' :: tail))) rfl
  have hM3 := parseMembers_last g "password".data e.password.data tail rfl
  norm_num at hM1 hM2 hM3
  simp [hM1, hM2, hM3, entryJson]

theorem parseElems_cons (g : Nat) (e : PasswordEntry) (tail : List Char) :
    parseElems (g + 6) (marshalEntryChars e ++ ',' :: tail) =
      Option.map (fun p => (entryJson e :: p.1, p.2)) (parseElems (g + 5) tail) := by
  show parseElems (g + 5 + 1) _ = _
  conv_lhs => rw [parseElems]
  rw [parseValue_entry g e (',' :: tail)]
  simp only [skipWs_cons_of ',' _ (by decide)]
  cases hres : parseElems (g + 5) tail with
  | none => simp [hres]
  | some p => simp [hres]

theorem parseElems_last (g : Nat) (e : PasswordEntry) (rest : List Char) :
    parseElems (g + 6) (marshalEntryChars e ++ ']' :: rest) =
      some ([entryJson e], rest) := by
  show parseElems (g + 5 + 1) _ = _
  conv_lhs => rw [parseElems]
  rw [parseValue_entry g e (']' :: rest)]
  simp only [skipWs_cons_of ']' _ (by decide)]

theorem parse_entries (l : List PasswordEntry) :
    ∀ (g : Nat) (rest : List Char), l ≠ [] →
      parseElems (g + l.length + 5) (entriesChars l ++ ']' :: rest) =
        some (l.map entryJson, rest) := by
  induction l with
  | nil => intro g rest hne; exact absurd rfl hne
  | cons e tl ih =>
    intro g rest _
    cases tl with
    | nil =>
      have h := parseElems_last g e rest
      have hlen : g + [e].length + 5 = g + 6 := by simp
      rw [hlen, show entriesChars [e] = marshalEntryChars e from rfl]
      exact h
    | cons e2 tl2 =>
      have hshape : entriesChars (e :: e2 :: tl2) ++ ']' :: rest =
          marshalEntryChars e ++ ',' :: (entriesChars (e2 :: tl2) ++ ']' :: rest) := by
        simp [entriesChars]
      have hcons := parseElems_cons (g + tl2.length + 1) e
        (entriesChars (e2 :: tl2) ++ ']' :: rest)
      have hih := ih g rest (by simp)
      rw [show g + (e :: e2 :: tl2).length + 5 = g + tl2.length + 1 + 6 from by
        simp only [List.length_cons]; omega]
      rw [hshape, hcons]
      rw [show g + (e2 :: tl2).length + 5 = g + tl2.length + 1 + 5 from by
        simp only [List.length_cons]; omega] at hih
      rw [hih]
      rfl

theorem marshalEntryChars_length_pos (e : PasswordEntry) :
    0 < (marshalEntryChars e).length := by
  simp [marshalEntryChars]

theorem length_le_entriesChars (l : List PasswordEntry) :
    l.length ≤ (entriesChars l).length := by
  induction l with
  | nil => simp [entriesChars]
  | cons e tl ih =>
    cases tl with
    | nil => simp [entriesChars, marshalEntryChars]
    | cons e2 tl2 =>
      have hpos := marshalEntryChars_length_pos e
      simp only [entriesChars, List.length_append, List.length_cons] at ih ⊢
      omega

theorem entriesChars_cons_head (e : PasswordEntry) (tl : List PasswordEntry) :
    ∃ M, entriesChars (e :: tl) = '\x7b' :: M := by
  cases tl with
  | nil => exact ⟨_, rfl⟩
  | cons e2 tl2 => exact ⟨_, rfl⟩

theorem parseTop_marshal (l : List PasswordEntry) :
    parseTop (marshal l) = some (entryListJson l) := by
  cases l with
  | nil => rfl
  | cons e tl =>
    obtain ⟨M, hM⟩ := entriesChars_cons_head e tl
    have hlen : tl.length ≤ M.length := by
      have := length_le_entriesChars (e :: tl)
      rw [hM] at this
      simp only [List.length_cons] at this
      omega
    have hdata : (marshal (e :: tl)).data = '[' :: (entriesChars (e :: tl) ++ [']']) := rfl
    have hP := parse_entries (e :: tl) (M.length - tl.length + 4) [] (by simp)
    rw [hM] at hP
    rw [show M.length - tl.length + 4 + (e :: tl).length + 5 = M.length + 10 from by
      simp only [List.length_cons] <;> omega] at hP
    rw [List.cons_append] at hP
    unfold parseTop
    rw [hdata, hM]
    rw [show ('[' :: ('\x7b' :: M ++ [']'])).length + 8 = M.length + 11 from by
      simp only [List.length_cons, List.length_append, List.length_nil] <;> omega]
    conv_lhs => rw [parseValue]
    simp [skipWs_cons_of '[' _ (by decide), List.cons_append,
      skipWs_cons_of '\x7b' _ (by decide), hP, skipWs, isJsonWs, entryListJson]

theorem unmarshalEntry_entryJson (e : PasswordEntry) :
    unmarshalEntry (entryJson e) = .ok e := rfl

theorem unmarshalEntries_entryListJson (l : List PasswordEntry) :
    unmarshalEntries (entryListJson l) = .ok l := by
  induction l with
  | nil => rfl
  | cons e tl ih =>
    simp only [entryListJson, unmarshalEntries, List.map_cons, List.mapM_cons,
      unmarshalEntry_entryJson] at ih ⊢
    rw [ih]
    rfl

theorem marshal_roundtrip (l : List PasswordEntry) :
    decodeEntries (marshal l) = .ok l := by
  simp [decodeEntries, parseTop_marshal l, unmarshalEntries_entryListJson l]

/-! ### Theorems: store operations -/

theorem read_write (data : List PasswordEntry) :
    Pw.read (Pw.write data) = .ok data := by
  simp [Pw.read, Pw.write, marshal_roundtrip]

theorem find?_append_not_found (entries : List PasswordEntry) (R : PasswordEntry)
    (hall : ∀ x ∈ entries, x.name ≠ R.name) :
    (entries ++ [R]).find? (fun x => x.name = R.name) = some R := by
  induction entries with
  | nil => simp [List.find?]
  | cons e tl ih =>
    have he : (e.name = R.name) = False := by
      simp [hall e (List.mem_cons_self e tl)]
    simp only [List.cons_append, List.find?_cons, he]
    simp only [decide_False]
    exact ih (fun x hx => hall x (List.mem_cons_of_mem e hx))

/-- C1: `Add` fails with `ErrPwAlreadyExists` exactly when the new entry's
name is already present; otherwise it appends the entry at the end,
writes the result, and a subsequent `Get` of that name returns the
entry. -/
theorem add_contract (fn : String) (R : PasswordEntry) (st : Option FsEntry)
    (entries : List PasswordEntry) (hfn : fn.length ≠ 0)
    (hread : Pw.read st = .ok entries) :
    ((∃ x ∈ entries, x.name = R.name) →
        Pw.Add fn R st = (.error .alreadyExists, st)) ∧
    ((∀ x ∈ entries, x.name ≠ R.name) →
        Pw.Add fn R st = (.ok (), Pw.write (entries ++ [R])) ∧
        Pw.Get fn R.name (Pw.Add fn R st).2 = .ok R) := by
  constructor
  · rintro ⟨x, hx, hname⟩
    have hc : Pw.containsName entries R.name = true := by
      simp only [Pw.containsName, List.any_eq_true]
      exact ⟨x, hx, by simp [hname]⟩
    simp [Pw.Add, hfn, hread, hc]
  · intro hall
    have hc : Pw.containsName entries R.name = false := by
      simp only [Pw.containsName, List.any_eq_false]
      intro x hx
      simp [hall x hx]
    have hAdd : Pw.Add fn R st = (.ok (), Pw.write (entries ++ [R])) := by
      simp [Pw.Add, hfn, hread, hc]
    refine ⟨hAdd, ?_⟩
    rw [hAdd]
    simp [Pw.Get, hfn, read_write, find?_append_not_found entries R hall]

theorem updateFirst_eq_none (R : PasswordEntry) (l : List PasswordEntry)
    (h : ∀ y ∈ l, y.name ≠ R.name) : Pw.updateFirst R l = none := by
  induction l with
  | nil => rfl
  | cons e tl ih =>
    have he : (e.name = R.name) = False := by simp [h e (List.mem_cons_self e tl)]
    simp [Pw.updateFirst, he, ih (fun y hy => h y (List.mem_cons_of_mem e hy))]

theorem updateFirst_split (R : PasswordEntry) (pre post : List PasswordEntry)
    (x : PasswordEntry) (hpre : ∀ y ∈ pre, y.name ≠ R.name) (hx : x.name = R.name) :
    Pw.updateFirst R (pre ++ x :: post) = some (pre ++ R :: post) := by
  induction pre with
  | nil => simp [Pw.updateFirst, hx]
  | cons e tl ih =>
    have he : (e.name = R.name) = False := by simp [hpre e (List.mem_cons_self e tl)]
    simp [Pw.updateFirst, he, ih (fun y hy => hpre y (List.mem_cons_of_mem e hy))]

/-- C2: `Update` replaces the first entry whose name matches, in place,
leaving all other entries at their positions, and fails with
`ErrPwNotFound` when no entry matches. -/
theorem update_contract (fn : String) (R : PasswordEntry) (st : Option FsEntry)
    (entries pre post : List PasswordEntry) (x : PasswordEntry) (hfn : fn.length ≠ 0)
    (hread : Pw.read st = .ok entries) :
    ((∀ y ∈ entries, y.name ≠ R.name) →
        Pw.Update fn R st = (.error .notFound, st)) ∧
    (entries = pre ++ x :: post → x.name = R.name → (∀ y ∈ pre, y.name ≠ R.name) →
        Pw.Update fn R st = (.ok (), Pw.write (pre ++ R :: post))) := by
  constructor
  · intro hall
    simp [Pw.Update, hfn, hread, updateFirst_eq_none R entries hall]
  · intro hsplit hx hpre
    subst hsplit
    simp [Pw.Update, hfn, hread, updateFirst_split R pre post x hpre hx]

theorem removeName_eq (nm : String) (l : List PasswordEntry) :
    Pw.removeName nm l =
      (l.filter (fun y => y.name ≠ nm), l.any (fun y => y.name = nm)) := by
  induction l with
  | nil => rfl
  | cons e tl ih =>
    by_cases he : e.name = nm
    · simp [Pw.removeName, ih, he]
    · simp [Pw.removeName, ih, he]

/-- C3: `Remove` fails with `ErrPwNotFound` when no entry has the given
name; otherwise it writes back exactly the entries whose name differs,
in their original relative order. -/
theorem remove_contract (fn nm : String) (st : Option FsEntry)
    (entries : List PasswordEntry) (hfn : fn.length ≠ 0)
    (hread : Pw.read st = .ok entries) :
    ((∀ y ∈ entries, y.name ≠ nm) → Pw.Remove fn nm st = (.error .notFound, st)) ∧
    ((∃ y ∈ entries, y.name = nm) →
        Pw.Remove fn nm st = (.ok (), Pw.write (entries.filter (fun y => y.name ≠ nm)))) := by
  constructor
  · intro hall
    have hany : entries.any (fun y => y.name = nm) = false := by
      simp only [List.any_eq_false]
      intro y hy
      simp [hall y hy]
    simp [Pw.Remove, hfn, hread, removeName_eq, hany]
  · rintro ⟨y, hy, hname⟩
    have hany : entries.any (fun y => y.name = nm) = true := by
      simp only [List.any_eq_true]
      exact ⟨y, hy, by simp [hname]⟩
    simp [Pw.Remove, hfn, hread, removeName_eq, hany]

/-- C4: every successful write operation leaves the store file with
permission bits `0600` (owner read/write only), whatever the prior
state and mode were. -/
theorem write_permission_invariant (fn nm : String) (st : Option FsEntry)
    (e : PasswordEntry) :
    ((Pw.Init fn st).1 = .ok () →
        ∃ c, (Pw.Init fn st).2 = some (.file c ownerOnlyMode)) ∧
    ((Pw.Add fn e st).1 = .ok () →
        ∃ c, (Pw.Add fn e st).2 = some (.file c ownerOnlyMode)) ∧
    ((Pw.Update fn e st).1 = .ok () →
        ∃ c, (Pw.Update fn e st).2 = some (.file c ownerOnlyMode)) ∧
    ((Pw.Remove fn nm st).1 = .ok () →
        ∃ c, (Pw.Remove fn nm st).2 = some (.file c ownerOnlyMode)) := by
  by_cases hf : fn.length = 0
  · simp [Pw.Init, Pw.Add, Pw.Update, Pw.Remove, hf]
  refine ⟨?_, ?_, ?_, ?_⟩
  · intro h
    cases st with
    | some fe => simp [Pw.Init, hf] at h
    | none => exact ⟨marshal [], by simp [Pw.Init, hf, Pw.write]⟩
  · intro h
    cases hre : Pw.read st with
    | error err => simp [Pw.Add, hf, hre] at h
    | ok data =>
      by_cases hc : Pw.containsName data e.name
      · simp [Pw.Add, hf, hre, hc] at h
      · exact ⟨marshal (data ++ [e]), by simp [Pw.Add, hf, hre, hc, Pw.write]⟩
  · intro h
    cases hre : Pw.read st with
    | error err => simp [Pw.Update, hf, hre] at h
    | ok data =>
      cases hu : Pw.updateFirst e data with
      | none => simp [Pw.Update, hf, hre, hu] at h
      | some data' =>
        exact ⟨marshal data', by simp [Pw.Update, hf, hre, hu, Pw.write]⟩
  · intro h
    cases hre : Pw.read st with
    | error err => simp [Pw.Remove, hf, hre] at h
    | ok data =>
      by_cases hb : (Pw.removeName nm data).2
      · exact ⟨marshal (Pw.removeName nm data).1,
          by simp [Pw.Remove, hf, hre, hb, Pw.write]⟩
      · simp [Pw.Remove, hf, hre, hb] at h

/-- C5: a mutating operation that fails with its domain error
(`Add` with `ErrPwAlreadyExists`, `Update`/`Remove` with `ErrPwNotFound`)
returns before calling `write`, leaving the on-disk state unchanged. -/
theorem domain_error_no_write (fn nm : String) (st : Option FsEntry)
    (e : PasswordEntry) :
    ((Pw.Add fn e st).1 = .error .alreadyExists → (Pw.Add fn e st).2 = st) ∧
    ((Pw.Update fn e st).1 = .error .notFound → (Pw.Update fn e st).2 = st) ∧
    ((Pw.Remove fn nm st).1 = .error .notFound → (Pw.Remove fn nm st).2 = st) := by
  by_cases hf : fn.length = 0
  · simp [Pw.Add, Pw.Update, Pw.Remove, hf]
  refine ⟨?_, ?_, ?_⟩
  · intro h
    cases hre : Pw.read st with
    | error err => simp [Pw.Add, hf, hre]
    | ok data =>
      by_cases hc : Pw.containsName data e.name
      · simp [Pw.Add, hf, hre, hc]
      · simp [Pw.Add, hf, hre, hc] at h
  · intro h
    cases hre : Pw.read st with
    | error err => simp [Pw.Update, hf, hre]
    | ok data =>
      cases hu : Pw.updateFirst e data with
      | none => simp [Pw.Update, hf, hre, hu]
      | some data' => simp [Pw.Update, hf, hre, hu] at h
  · intro h
    cases hre : Pw.read st with
    | error err => simp [Pw.Remove, hf, hre]
    | ok data =>
      by_cases hb : (Pw.removeName nm data).2
      · simp [Pw.Remove, hf, hre, hb] at h
      · simp [Pw.Remove, hf, hre, hb]

/-- C9: with the store path missing, every read-requiring operation fails
with `ErrPwFileNotFound`, which is distinct from the record-level and
collision errors; `Init` on an existing path fails with
`ErrPwFileAlreadyExists`. -/
theorem missing_file_classification (fn nm : String) (e : PasswordEntry)
    (fe : FsEntry) (hfn : fn.length ≠ 0) :
    Pw.Get fn nm none = .error .fileNotFound ∧
    Pw.List fn none = .error .fileNotFound ∧
    (Pw.Add fn e none).1 = .error .fileNotFound ∧
    (Pw.Update fn e none).1 = .error .fileNotFound ∧
    (Pw.Remove fn nm none).1 = .error .fileNotFound ∧
    (Pw.Init fn (some fe)).1 = .error .fileAlreadyExists ∧
    PwError.fileNotFound ≠ PwError.notFound ∧
    PwError.fileNotFound ≠ PwError.alreadyExists ∧
    PwError.fileNotFound ≠ PwError.fileAlreadyExists ∧
    PwError.notFound ≠ PwError.alreadyExists := by
  refine ⟨?_, ?_, ?_, ?_, ?_, ?_, by decide, by decide, by decide, by decide⟩ <;>
    simp [Pw.Get, Pw.List, Pw.Add, Pw.Update, Pw.Remove, Pw.Init, Pw.read, hfn]

/-- C6: encoding any entry sequence with the JSON marshaller and decoding
the resulting bytes yields the same sequence. -/
theorem codec_round_trip (l : List PasswordEntry) :
    decodeEntries (marshal l) = .ok l :=
  marshal_roundtrip l

/-- C7 counterexample: the decrypted bytes `null` are not a JSON array of
records (they parse to the JSON literal `null`), yet `read` silently
returns the empty store instead of an invalid-format error — exactly
what `json.Unmarshal` does with `null` into a slice. -/
theorem decode_null_silently_empty :
    parseTop "null" = some JsonV.null ∧
    (∀ vs, JsonV.null ≠ JsonV.arr vs) ∧
    Pw.read (some (.file "null" 384)) = .ok [] := by
  exact ⟨rfl, fun vs h => JsonV.noConfusion h, rfl⟩

/-- C7 amended: decrypted bytes that are not well-formed JSON fail with an
invalid-JSON error, and so does well-formed JSON whose top-level value is
neither an array nor `null`; an empty-array encoding decodes to the
empty sequence; but the JSON literal `null` is silently treated as an
empty store rather than rejected. -/
theorem decoding_discipline (s : String) (m : Nat) :
    Pw.read (some (.file "[]" m)) = .ok [] ∧
    Pw.read (some (.file "null" m)) = .ok [] ∧
    (parseTop s = none →
      ∃ msg, Pw.read (some (.file s m)) = .error (.invalidJson msg)) ∧
    (∀ v, parseTop s = some v → v ≠ .null → (∀ vs, v ≠ JsonV.arr vs) →
      ∃ msg, Pw.read (some (.file s m)) = .error (.invalidJson msg)) := by
  refine ⟨rfl, rfl, ?_, ?_⟩
  · intro h
    exact ⟨"invalid JSON syntax", by simp [Pw.read, decodeEntries, h]⟩
  · intro v h hnull harr
    cases v with
    | null => exact absurd rfl hnull
    | arr vs => exact absurd rfl (harr vs)
    | bool b =>
      exact ⟨"cannot unmarshal value into slice of PasswordEntry",
        by simp [Pw.read, decodeEntries, h, unmarshalEntries]⟩
    | num t =>
      exact ⟨"cannot unmarshal value into slice of PasswordEntry",
        by simp [Pw.read, decodeEntries, h, unmarshalEntries]⟩
    | str t =>
      exact ⟨"cannot unmarshal value into slice of PasswordEntry",
        by simp [Pw.read, decodeEntries, h, unmarshalEntries]⟩
    | obj ms =>
      exact ⟨"cannot unmarshal value into slice of PasswordEntry",
        by simp [Pw.read, decodeEntries, h, unmarshalEntries]⟩

theorem decoding_discipline_witness :
    Pw.read (some (.file "[]" 384)) = .ok [] ∧
    (∃ msg, Pw.read (some (.file "x" 384)) = .error (.invalidJson msg)) ∧
    (∃ msg, Pw.read (some (.file "true" 384)) = .error (.invalidJson msg)) :=
  ⟨(decoding_discipline "x" 384).1,
   (decoding_discipline "x" 384).2.2.1 rfl,
   (decoding_discipline "true" 384).2.2.2 (JsonV.bool true) rfl
     (fun h => JsonV.noConfusion h) (fun vs h => JsonV.noConfusion h)⟩

theorem flatMap_utf8_ascii (l : List Char) (h : ∀ c ∈ l, c.toNat < 128) :
    l.flatMap utf8Char = l.map (fun c => c.toNat) := by
  induction l with
  | nil => rfl
  | cons c cs ih =>
    have hc : c.toNat < 128 := h c (List.mem_cons_self c cs)
    simp only [List.flatMap_cons, List.map_cons, utf8Char, if_pos hc]
    rw [ih (fun x hx => h x (List.mem_cons_of_mem c hx))]
    rfl

/-- C8 counterexample: `GeneratePassword` indexes the charset string by
byte, so with the two-byte UTF-8 charset `"é"` and length 1 it can return
the single byte `0xC3`, which is not the encoding of any one-character
string over that charset. -/
theorem generate_multibyte_cex :
    GeneratePassword 1 (goBytes "é") (fun _ => 0) = .ok [195] ∧
    (∀ t : String, (∀ c ∈ t.data, c ∈ "é".data) → goBytes t ≠ [195]) := by
  constructor
  · rfl
  · intro t hmem
    cases ht : t.data with
    | nil => simp [goBytes, ht]
    | cons c cs =>
      have hc : c ∈ "é".data := hmem c (by rw [ht]; exact List.mem_cons_self c cs)
      have hce : c = 'é' := by simpa using hc
      subst hce
      simp [goBytes, ht, utf8Char]

/-- C8 amended: for length > 0 and a non-empty charset all of whose
characters are single-byte (ASCII), the generated byte string is the
encoding of a string of exactly `length` characters, each a charset
character.  (For multi-byte charsets only the byte-level guarantee of
the generator holds.) -/
theorem generate_ascii_contract (len : Int) (cs : String) (draws : Nat → Nat)
    (hlen : 0 < len) (hcs : cs.data ≠ [])
    (hascii : ∀ c ∈ cs.data, c.toNat < 128)
    (hdraw : ∀ i, draws i < (goBytes cs).length) :
    ∃ t : String, GeneratePassword len (goBytes cs) draws = .ok (goBytes t) ∧
      t.data.length = len.toNat ∧ ∀ c ∈ t.data, c ∈ cs.data := by
  have hga : goBytes cs = cs.data.map (fun c => c.toNat) :=
    flatMap_utf8_ascii cs.data hascii
  have hglen : (goBytes cs).length = cs.data.length := by
    rw [hga, List.length_map]
  have hbound : ∀ i, draws i < cs.data.length := fun i => hglen ▸ hdraw i
  refine ⟨String.mk ((List.range len.toNat).map (fun i => cs.data.getD (draws i) 'A')),
    ?_, ?_, ?_⟩
  · have hmem : ∀ i, cs.data.getD (draws i) 'A' ∈ cs.data := by
      intro i
      rw [List.getD_eq_getElem cs.data 'A' (hbound i)]
      exact List.getElem_mem _
    have htascii : ∀ c ∈ (List.range len.toNat).map
        (fun i => cs.data.getD (draws i) 'A'), c.toNat < 128 := by
      intro c hcmem
      obtain ⟨i, _, rfl⟩ := List.mem_map.mp hcmem
      exact hascii _ (hmem i)
    unfold GeneratePassword goBytes
    rw [if_neg (by omega),
      if_neg (by
        rw [flatMap_utf8_ascii cs.data hascii, List.length_map]
        intro h
        exact hcs (List.length_eq_zero.mp h))]
    rw [show (String.mk ((List.range len.toNat).map
        (fun i => cs.data.getD (draws i) 'A'))).data
      = (List.range len.toNat).map (fun i => cs.data.getD (draws i) 'A') from rfl]
    rw [flatMap_utf8_ascii _ htascii]
    rw [List.map_map]
    have hfun : (fun i => (cs.data.flatMap utf8Char).getD (draws i) 0)
        = ((fun c => c.toNat) ∘ fun i => cs.data.getD (draws i) 'A') := by
      funext i
      simp only [Function.comp_apply]
      rw [flatMap_utf8_ascii cs.data hascii]
      rw [List.getD_eq_getElem _ _ (by rw [List.length_map]; exact hbound i)]
      rw [List.getD_eq_getElem _ _ (hbound i)]
      simp
    rw [hfun]
  · simp
  · intro c hcmem
    obtain ⟨i, _, rfl⟩ := List.mem_map.mp hcmem
    rw [List.getD_eq_getElem cs.data 'A' (hbound i)]
    exact List.getElem_mem _

/-- C10: `GeneratePassword` works on bytes: for positive length and a
non-empty charset byte string, with every random draw below the charset
byte count, it returns a byte string of exactly `length` bytes, each one
a byte of the charset. -/
theorem generate_password_bytes (len : Int) (charset : List Nat) (draws : Nat → Nat)
    (hlen : 0 < len) (hcs : charset ≠ []) (hdraw : ∀ i, draws i < charset.length) :
    ∃ pw, GeneratePassword len charset draws = .ok pw ∧
      pw.length = len.toNat ∧ ∀ b ∈ pw, b ∈ charset := by
  unfold GeneratePassword
  rw [if_neg (by omega), if_neg (fun h => hcs (List.length_eq_zero.mp h))]
  refine ⟨_, rfl, by simp, ?_⟩
  intro b hb
  obtain ⟨i, _, rfl⟩ := List.mem_map.mp hb
  rw [List.getD_eq_getElem charset 0 (hdraw i)]
  exact List.getElem_mem _

theorem add_contract_witness :
    (Pw.Add "f" ⟨"a", "x", "y"⟩ (Pw.write [⟨"a", "u", "p"⟩]) =
      (.error .alreadyExists, Pw.write [⟨"a", "u", "p"⟩])) ∧
    (Pw.Add "f" ⟨"d", "x", "y"⟩ (Pw.write [⟨"a", "u", "p"⟩]) =
      (.ok (), Pw.write ([⟨"a", "u", "p"⟩] ++ [⟨"d", "x", "y"⟩])) ∧
     Pw.Get "f" "d" (Pw.Add "f" ⟨"d", "x", "y"⟩ (Pw.write [⟨"a", "u", "p"⟩])).2 =
      .ok ⟨"d", "x", "y"⟩) :=
  ⟨(add_contract "f" ⟨"a", "x", "y"⟩ (Pw.write [⟨"a", "u", "p"⟩]) [⟨"a", "u", "p"⟩]
      (by decide) (read_write _)).1 ⟨⟨"a", "u", "p"⟩, by decide, rfl⟩,
   (add_contract "f" ⟨"d", "x", "y"⟩ (Pw.write [⟨"a", "u", "p"⟩]) [⟨"a", "u", "p"⟩]
      (by decide) (read_write _)).2 (by decide)⟩

theorem update_contract_witness :
    (Pw.Update "f" ⟨"z", "x", "y"⟩
        (Pw.write [⟨"a", "u", "p"⟩, ⟨"b", "v", "q"⟩, ⟨"c", "w", "r"⟩]) =
      (.error .notFound,
        Pw.write [⟨"a", "u", "p"⟩, ⟨"b", "v", "q"⟩, ⟨"c", "w", "r"⟩])) ∧
    (Pw.Update "f" ⟨"b", "v2", "q2"⟩
        (Pw.write [⟨"a", "u", "p"⟩, ⟨"b", "v", "q"⟩, ⟨"c", "w", "r"⟩]) =
      (.ok (), Pw.write ([⟨"a", "u", "p"⟩] ++ ⟨"b", "v2", "q2"⟩ :: [⟨"c", "w", "r"⟩]))) :=
  ⟨(update_contract "f" ⟨"z", "x", "y"⟩
      (Pw.write [⟨"a", "u", "p"⟩, ⟨"b", "v", "q"⟩, ⟨"c", "w", "r"⟩])
      [⟨"a", "u", "p"⟩, ⟨"b", "v", "q"⟩, ⟨"c", "w", "r"⟩] [] [] ⟨"a", "u", "p"⟩
      (by decide) (read_write _)).1 (by decide),
   (update_contract "f" ⟨"b", "v2", "q2"⟩
      (Pw.write [⟨"a", "u", "p"⟩, ⟨"b", "v", "q"⟩, ⟨"c", "w", "r"⟩])
      [⟨"a", "u", "p"⟩, ⟨"b", "v", "q"⟩, ⟨"c", "w", "r"⟩]
      [⟨"a", "u", "p"⟩] [⟨"c", "w", "r"⟩] ⟨"b", "v", "q"⟩
      (by decide) (read_write _)).2 rfl (by decide) (by decide)⟩

theorem remove_contract_witness :
    (Pw.Remove "f" "z"
        (Pw.write [⟨"a", "u", "p"⟩, ⟨"b", "v", "q"⟩, ⟨"c", "w", "r"⟩]) =
      (.error .notFound,
        Pw.write [⟨"a", "u", "p"⟩, ⟨"b", "v", "q"⟩, ⟨"c", "w", "r"⟩])) ∧
    (Pw.Remove "f" "b"
        (Pw.write [⟨"a", "u", "p"⟩, ⟨"b", "v", "q"⟩, ⟨"c", "w", "r"⟩]) =
      (.ok (), Pw.write ([⟨"a", "u", "p"⟩, ⟨"b", "v", "q"⟩, ⟨"c", "w", "r"⟩].filter
        (fun y => y.name ≠ "b")))) :=
  ⟨(remove_contract "f" "z"
      (Pw.write [⟨"a", "u", "p"⟩, ⟨"b", "v", "q"⟩, ⟨"c", "w", "r"⟩])
      [⟨"a", "u", "p"⟩, ⟨"b", "v", "q"⟩, ⟨"c", "w", "r"⟩]
      (by decide) (read_write _)).1 (by decide),
   (remove_contract "f" "b"
      (Pw.write [⟨"a", "u", "p"⟩, ⟨"b", "v", "q"⟩, ⟨"c", "w", "r"⟩])
      [⟨"a", "u", "p"⟩, ⟨"b", "v", "q"⟩, ⟨"c", "w", "r"⟩]
      (by decide) (read_write _)).2 ⟨⟨"b", "v", "q"⟩, by decide, rfl⟩⟩

set_option maxRecDepth 10000 in
theorem write_permission_invariant_witness :
    (∃ c, (Pw.Init "f" none).2 = some (.file c ownerOnlyMode)) ∧
    (∃ c, (Pw.Add "f" ⟨"d", "x", "y"⟩ (Pw.write [])).2 =
      some (.file c ownerOnlyMode)) ∧
    (∃ c, (Pw.Update "f" ⟨"a", "x", "y"⟩ (Pw.write [⟨"a", "u", "p"⟩])).2 =
      some (.file c ownerOnlyMode)) ∧
    (∃ c, (Pw.Remove "f" "a" (Pw.write [⟨"a", "u", "p"⟩])).2 =
      some (.file c ownerOnlyMode)) :=
  ⟨(write_permission_invariant "f" "a" none ⟨"d", "x", "y"⟩).1 (by rfl),
   (write_permission_invariant "f" "a" (Pw.write []) ⟨"d", "x", "y"⟩).2.1 (by rfl),
   (write_permission_invariant "f" "a" (Pw.write [⟨"a", "u", "p"⟩])
      ⟨"a", "x", "y"⟩).2.2.1 (by rfl),
   (write_permission_invariant "f" "a" (Pw.write [⟨"a", "u", "p"⟩])
      ⟨"a", "x", "y"⟩).2.2.2 (by rfl)⟩

set_option maxRecDepth 10000 in
theorem domain_error_no_write_witness :
    ((Pw.Add "f" ⟨"a", "x", "y"⟩ (Pw.write [⟨"a", "u", "p"⟩])).2 =
      Pw.write [⟨"a", "u", "p"⟩]) ∧
    ((Pw.Update "f" ⟨"z", "x", "y"⟩ (Pw.write [⟨"a", "u", "p"⟩])).2 =
      Pw.write [⟨"a", "u", "p"⟩]) ∧
    ((Pw.Remove "f" "z" (Pw.write [⟨"a", "u", "p"⟩])).2 =
      Pw.write [⟨"a", "u", "p"⟩]) :=
  ⟨(domain_error_no_write "f" "z" (Pw.write [⟨"a", "u", "p"⟩]) ⟨"a", "x", "y"⟩).1 (by rfl),
   (domain_error_no_write "f" "z" (Pw.write [⟨"a", "u", "p"⟩]) ⟨"z", "x", "y"⟩).2.1 (by rfl),
   (domain_error_no_write "f" "z" (Pw.write [⟨"a", "u", "p"⟩]) ⟨"a", "x", "y"⟩).2.2 (by rfl)⟩

theorem missing_file_classification_witness :
    Pw.Get "f" "a" none = .error .fileNotFound ∧
    Pw.List "f" none = .error .fileNotFound ∧
    (Pw.Add "f" ⟨"a", "u", "p"⟩ none).1 = .error .fileNotFound ∧
    (Pw.Update "f" ⟨"a", "u", "p"⟩ none).1 = .error .fileNotFound ∧
    (Pw.Remove "f" "a" none).1 = .error .fileNotFound ∧
    (Pw.Init "f" (some FsEntry.dir)).1 = .error .fileAlreadyExists ∧
    PwError.fileNotFound ≠ PwError.notFound ∧
    PwError.fileNotFound ≠ PwError.alreadyExists ∧
    PwError.fileNotFound ≠ PwError.fileAlreadyExists ∧
    PwError.notFound ≠ PwError.alreadyExists :=
  missing_file_classification "f" "a" ⟨"a", "u", "p"⟩ FsEntry.dir (by decide)

theorem generate_ascii_contract_witness :
    ∃ t : String, GeneratePassword 10 (goBytes "ab") (fun _ => 0) = .ok (goBytes t) ∧
      t.data.length = (10 : Int).toNat ∧ ∀ c ∈ t.data, c ∈ "ab".data :=
  generate_ascii_contract 10 "ab" (fun _ => 0) (by decide) (by decide)
    (by decide) (fun i => (by decide : (0 : Nat) < 2))

theorem generate_password_bytes_witness :
    ∃ pw, GeneratePassword 10 [97, 98] (fun _ => 0) = .ok pw ∧
      pw.length = (10 : Int).toNat ∧ ∀ b ∈ pw, b ∈ [97, 98] :=
  generate_password_bytes 10 [97, 98] (fun _ => 0) (by decide) (by decide)
    (fun i => (by decide : (0 : Nat) < 2))
